import Mathlib

/-!
Verification of the literature retrieval and relevance-scoring pipeline of the
manuscript-polish workflow.

This file gives a shallow embedding of the Python source:

* `src/core/utils/algorithm_utils.py` — keyword expansion, keyword-match score,
  TF-IDF relevance score;
* `src/core/utils/text_utils.py` — `clean_text`, `generate_citation`;
* `src/core/utils/file_utils.py` — `get_supported_files` (directory enumeration
  abstracted as a list of `(path, optional content)` pairs; `None` content models
  a read failure of `read_file_content`);
* `src/core/services/literature_service.py` — `extract_metadata_fast`,
  `_get_or_extract_metadata` (the metadata cache), `search_literature`,
  `_generate_citation`, `_find_matched_keywords`.

Texts are modelled as `List Char` (`Str` below); Python's Unicode-aware `\w`
class is modelled on the ASCII fragment (letters, digits, underscore) that the
scoring claims exercise.  Python floats are modelled exactly: rational values
as `ℚ`, and values involving `math.log` over `ℝ` with `Real.log`.  Python's
`list.sort` (Timsort) is modelled by its documented extensional behaviour: a
stable sort, embedded here as a stable insertion sort `sortS`.
-/

namespace ManuscriptPolish

/-- Model of Python text: a list of characters. -/
abbrev Str := List Char

/-- Python regex `\w` on the ASCII fragment: letters, digits, underscore. -/
def isWordChar (c : Char) : Bool := c.isAlphanum || c = '_'

/-- Python `str.lower()` (ASCII fragment). -/
def listToLower (s : Str) : Str := s.map Char.toLower

/-- Python `str.strip()`: drop leading and trailing whitespace. -/
def stripStr (s : Str) : Str :=
  ((s.dropWhile Char.isWhitespace).reverse.dropWhile Char.isWhitespace).reverse

/-- Python `str.startswith('#')`. -/
def startsHash (s : Str) : Bool :=
  match s with
  | [] => false
  | c :: _ => c = '#'

/-- Whether the character at index `i` exists and is a word character. -/
def wordCharAt (s : Str) (i : Nat) : Bool :=
  match s.get? i with
  | some c => isWordChar c
  | none => false

/-- Python regex `\b` at position `i` of `s`: exactly one of the characters
adjacent to the position is a word character (out of range counts as non-word). -/
def boundaryB (s : Str) (i : Nat) : Bool :=
  (if i = 0 then false else wordCharAt s (i - 1)) != wordCharAt s i

/-- Python `pat in s` (substring containment), used by `_find_matched_keywords`
and by the document-frequency count `word in doc.lower()`. -/
def isSubstrOf (pat s : Str) : Bool :=
  (List.range (s.length + 1)).any (fun i => pat.isPrefixOf (s.drop i))

/-- A match of regex `\b<escaped pat>\b` starting at position `i` of `s`. -/
def wordMatchAt (pat s : Str) (i : Nat) : Bool :=
  pat.isPrefixOf (s.drop i) && boundaryB s i && boundaryB s (i + pat.length)

/-- Python `re.search(r'\b' + re.escape(pat) + r'\b', s)` succeeds. -/
def hasWholeWordMatch (pat s : Str) : Bool :=
  (List.range (s.length + 1)).any (fun i => wordMatchAt pat s i)

/-- Tokenization performed by `re.findall(r'\b\w+\b', s)`: the maximal runs of
word characters of `s`, via a fuel argument for structural recursion (the fuel
`s.length` always suffices). -/
def tokenizeF : Nat → Str → List Str
  | 0, _ => []
  | _ + 1, [] => []
  | fuel + 1, c :: rest =>
    if isWordChar c then
      List.takeWhile isWordChar (c :: rest) :: tokenizeF fuel (List.dropWhile isWordChar rest)
    else
      tokenizeF fuel rest

/-- Model of `re.findall(r'\b\w+\b', s)`. -/
def tokenize (s : Str) : List Str := tokenizeF s.length s

/-- Python string comparison `a < b` (lexicographic on code points), the order
used by `sorted()` on the enumerated file paths. -/
def lexLt : Str → Str → Bool
  | [], [] => false
  | [], _ :: _ => true
  | _ :: _, [] => false
  | a :: as, b :: bs => if a < b then true else if b < a then false else lexLt as bs

/-- Stable insertion used to model Python's stable `list.sort`: `x` walks past
every element `y` with `lt y x` and is placed before the first other element. -/
def insertS (lt : α → α → Bool) (x : α) : List α → List α
  | [] => [x]
  | y :: ys => if lt y x then y :: insertS lt x ys else x :: y :: ys

/-- Model of Python's stable sort: ascending with respect to `lt`, elements
that compare equal keep their original relative order. -/
def sortS (lt : α → α → Bool) (l : List α) : List α := l.foldr (insertS lt) []

/-- Python `s.replace(pat, rep)` (leftmost, non-overlapping), with fuel for
structural recursion; fuel `s.length` always suffices for nonempty `pat`. -/
def replaceAllF : Nat → Str → Str → Str → Str
  | 0, _, _, s => s
  | _ + 1, _, _, [] => []
  | fuel + 1, pat, rep, c :: rest =>
    if pat ≠ [] ∧ pat.isPrefixOf (c :: rest) then
      rep ++ replaceAllF fuel pat rep (List.drop pat.length (c :: rest))
    else
      c :: replaceAllF fuel pat rep rest

/-- Python `s.replace(pat, rep)`. -/
def replaceAll (pat rep s : Str) : Str := replaceAllF s.length pat rep s

/-- Model of `re.sub(r'\s+', ' ', s)`: collapse each maximal whitespace run to one space. -/
def collapseWs : Str → Str
  | [] => []
  | c :: rest =>
    if c.isWhitespace then
      match rest with
      | r :: _ => if r.isWhitespace then collapseWs rest else ' ' :: collapseWs rest
      | [] => [' ']
    else c :: collapseWs rest

/-- Model of `text_utils.clean_text`: collapse whitespace runs, then strip. -/
def clean_text (s : Str) : Str := stripStr (collapseWs s)

/-- Model of `pathlib.Path(p).stem`: final path component without its suffix (the suffix
starts at the last dot whose index `i` satisfies `0 < i < len(name) - 1`). -/
def pathStem (p : Str) : Str :=
  let name := (p.splitOn '/').getLastD []
  let dotIdxs := (List.range name.length).filter
    (fun i => name.get? i = some '.' ∧ 0 < i ∧ i + 1 < name.length)
  match dotIdxs.getLast? with
  | some i => name.take i
  | none => name

/-! ### algorithm_utils.py -/

/-- Model of `AlgorithmUtils.expand_keywords_with_synonyms`: the set
`keywords ∪ ⋃ synonyms[kw.lower()]` (Python returns `list(set(...))`, whose
order is not significant downstream; modelled as first-occurrence dedup). -/
def expand_keywords_with_synonyms (keywords : List Str) (general_synonyms : List (Str × List Str)) :
    List Str :=
  (keywords ++ keywords.flatMap
    (fun k => (List.lookup (listToLower k) general_synonyms).getD [])).dedup

/-- Model of `AlgorithmUtils.get_general_synonyms`: the fixed built-in synonym table. -/
def get_general_synonyms : List (Str × List Str) :=
  [ (("research").data, [("study").data, ("investigation").data, ("analysis").data, ("examination").data])
  , (("method").data, [("approach").data, ("technique").data, ("methodology").data, ("procedure").data])
  , (("result").data, [("outcome").data, ("finding").data, ("conclusion").data, ("output").data])
  , (("analysis").data, [("examination").data, ("evaluation").data, ("assessment").data, ("study").data])
  , (("data").data, [("information").data, ("dataset").data, ("statistics").data, ("evidence").data])
  , (("model").data, [("framework").data, ("system").data, ("structure").data, ("design").data])
  , (("algorithm").data, [("method").data, ("procedure").data, ("technique").data, ("approach").data])
  , (("performance").data, [("efficiency").data, ("effectiveness").data, ("capability").data, ("quality").data])
  , (("evaluation").data, [("assessment").data, ("analysis").data, ("examination").data, ("review").data])
  , (("experiment").data, [("test").data, ("trial").data, ("study").data, ("investigation").data])
  , (("application").data, [("use").data, ("implementation").data, ("deployment").data, ("utilization").data])
  , (("development").data, [("creation").data, ("construction").data, ("building").data, ("design").data])
  , (("improvement").data, [("enhancement").data, ("optimization").data, ("refinement").data, ("upgrade").data])
  , (("comparison").data, [("contrast").data, ("evaluation").data, ("analysis").data, ("assessment").data])
  , (("validation").data, [("verification").data, ("confirmation").data, ("testing").data, ("proof").data]) ]

/-- Model of `AlgorithmUtils.calculate_keyword_match_score`: fraction of keywords with a
whole-word case-insensitive match in the text, 0 on empty keywords or text. -/
def calculate_keyword_match_score (keywords : List Str) (text : Str) : ℚ :=
  if keywords = [] ∨ text = [] then 0
  else
    ((keywords.countP
        (fun k => hasWholeWordMatch (listToLower k) (listToLower text)) : ℚ)) /
      (keywords.length : ℚ)

/-- One summand of the TF-IDF loop of `calculate_relevance_score`: term
frequency of keyword token `w` in the target document's token list times
`ln(corpus size / documents containing w)`, guarded exactly as in the source
(`tf > 0` and `docs_containing_word > 0`). -/
noncomputable def tfidfTerm (all_documents : List Str) (doc_words : List Str) (w : Str) : ℝ :=
  let tf : ℝ := (doc_words.count w : ℝ) / (doc_words.length : ℝ)
  if 0 < tf then
    (let docs_containing_word :=
      (all_documents.filter (fun doc => isSubstrOf w (listToLower doc))).length
    if 0 < docs_containing_word then
      tf * Real.log ((all_documents.length : ℝ) / (docs_containing_word : ℝ))
    else 0)
  else 0

/-- Model of `AlgorithmUtils.calculate_relevance_score`: the TF-IDF score, summed over
every word token of every keyword. -/
noncomputable def calculate_relevance_score (keywords : List Str) (document_text : Str)
    (all_documents : List Str) : ℝ :=
  let doc_words := tokenize (listToLower document_text)
  if doc_words.length = 0 then 0
  else
    (keywords.map
      (fun keyword =>
        ((tokenize (listToLower keyword)).map (tfidfTerm all_documents doc_words)).sum)).sum

/-- The multiset of word tokens of all keywords, in loop order. -/
def kwTokens (keywords : List Str) : List Str :=
  keywords.flatMap (fun keyword => tokenize (listToLower keyword))

/-- The same TF-IDF sum with the `docs_containing_word > 0` guard removed; used
to state that the guard's failure branch is unreachable when the target document
belongs to the corpus. -/
noncomputable def tfidfTermNoGuard (all_documents : List Str) (doc_words : List Str) (w : Str) : ℝ :=
  let tf : ℝ := (doc_words.count w : ℝ) / (doc_words.length : ℝ)
  if 0 < tf then
    tf * Real.log ((all_documents.length : ℝ) /
      (((all_documents.filter (fun doc => isSubstrOf w (listToLower doc))).length : ℝ)))
  else 0

/-- Variant of `calculate_relevance_score` with the unreachable document-frequency guard
removed. -/
noncomputable def calculate_relevance_score_noGuard (keywords : List Str) (document_text : Str)
    (all_documents : List Str) : ℝ :=
  let doc_words := tokenize (listToLower document_text)
  if doc_words.length = 0 then 0
  else
    (keywords.map
      (fun keyword =>
        ((tokenize (listToLower keyword)).map (tfidfTermNoGuard all_documents doc_words)).sum)).sum

/-! ### literature_service.py — fast metadata extraction -/

/-- Values stored in a metadata record: strings or lists of strings. -/
inductive MetaValue where
  | str : Str → MetaValue
  | strList : List Str → MetaValue
deriving DecidableEq, Inhabited

/-- A Python dict of metadata, in insertion order. -/
abbrev MetaDict := List (Str × MetaValue)

def kTitle : Str := ("title").data
def kAuthors : Str := ("authors").data
def kAbstract : Str := ("abstract").data
def kKeywords : Str := ("keywords").data
def kYear : Str := ("year").data
def kFilePath : Str := ("file_path").data
def kExtractionTime : Str := ("extraction_time").data
def kExtractionMethod : Str := ("extraction_method").data

/-- The record built by `extract_metadata_fast` for readable non-empty content. -/
structure FastMeta where
  title : Str
  authors : List Str
  abstract : Str
  keywords : List Str
  year : Str
  filePath : Str
  extractionTime : Str
deriving DecidableEq

/-- Serialize a `FastMeta` as the Python dict, in the source's key order. -/
def metaToDict (m : FastMeta) : MetaDict :=
  [ (kTitle, MetaValue.str m.title)
  , (kAuthors, MetaValue.strList m.authors)
  , (kAbstract, MetaValue.str m.abstract)
  , (kKeywords, MetaValue.strList m.keywords)
  , (kYear, MetaValue.str m.year)
  , (kFilePath, MetaValue.str m.filePath)
  , (kExtractionTime, MetaValue.str m.extractionTime)
  , (kExtractionMethod, MetaValue.str (("fast_local").data)) ]

def denyTitle : List Str :=
  [("author").data, ("date").data, ("@").data, ("http").data, ("doi").data]

def abstractMarkers : List Str :=
  [("abstract").data, ("摘要").data, ("summary").data, ("概 要").data]

def keywordMarkers : List Str :=
  [("keywords").data, ("关键词").data, ("key words").data, ("关键字").data]

def authorMarkers : List Str :=
  [("author").data, ("作者").data, ("@").data]

/-- Title scan: the first of the first 10 lines whose stripped form is nonempty,
does not start with `#`, has length > 5 and contains no denylist substring;
otherwise the file stem with underscores replaced by spaces. -/
def extractTitle (lines : List Str) (path : Str) : Str :=
  match (lines.take 10).findSome?
    (fun l =>
      let ls := stripStr l
      if ls ≠ [] ∧ startsHash ls = false ∧ 5 < ls.length ∧
          (denyTitle.any (fun d => isSubstrOf d (listToLower ls))) = false
      then some ls else none) with
  | some t => t
  | none => (pathStem path).map (fun c => if c = '_' then ' ' else c)

/-- The inner loop after an abstract marker: accumulate raw non-blank lines,
stop at a `#` heading, or at a blank line once something was accumulated. -/
def absCollect : List Str → List Str → List Str
  | [], acc => acc
  | l :: rest, acc =>
    if stripStr l ≠ [] then
      if startsHash l then acc else absCollect rest (acc ++ [l])
    else if acc ≠ [] then acc
    else absCollect rest acc

/-- Abstract scan: at the first line containing an abstract marker, join the
collected following lines (window of 19 lines, `range(i+1, min(i+20, len))`)
with spaces and strip. Empty if no marker is found. -/
def extractAbstract (lines : List Str) : Str :=
  match (List.range lines.length).find?
    (fun i => abstractMarkers.any (fun m => isSubstrOf m (listToLower (lines.getD i [])))) with
  | some i =>
      stripStr (List.intercalate ((" ").data) (absCollect ((lines.drop (i + 1)).take 19) []))
  | none => []

/-- Keyword scan: at the first line containing a keyword marker, join the next
4 lines, strip, normalize Chinese commas, split on commas, strip the pieces,
drop the empty ones, keep at most 10. -/
def extractKeywords (lines : List Str) : List Str :=
  match (List.range lines.length).find?
    (fun i => keywordMarkers.any (fun m => isSubstrOf m (listToLower (lines.getD i [])))) with
  | some i =>
      let ktext := stripStr (List.intercalate ((" ").data) ((lines.drop (i + 1)).take 4))
      (((List.splitOn ',' (replaceAll (("，").data) ((",").data) ktext)).map stripStr).filter
        (fun k => k ≠ [])).take 10
  | none => []

/-- Author scan: at the first of the first 15 lines containing an author marker,
remove the marker texts, strip, then split on commas (normalizing Chinese commas
and the literal " and "), keeping at most 5 nonempty stripped pieces. -/
def extractAuthors (lines : List Str) : List Str :=
  match (lines.take 15).find?
    (fun l => authorMarkers.any (fun m => isSubstrOf m (listToLower l))) with
  | some line =>
      let t := stripStr (replaceAll (("@").data) []
        (replaceAll (("作者:").data) [] (replaceAll (("author:").data) [] line)))
      if t = [] then []
      else
        (((List.splitOn ','
            (replaceAll ((" and ").data) ((",").data)
              (replaceAll (("，").data) ((",").data) t))).map stripStr).filter
          (fun a => a ≠ [])).take 5
  | none => []

/-- A match of regex `\b(19|20)\d{2}\b` starting at position `i` of `s`. -/
def yearAt (s : Str) (i : Nat) : Option Str :=
  match s.drop i with
  | c1 :: c2 :: c3 :: c4 :: _ =>
    if ((c1 = '1' ∧ c2 = '9') ∨ (c1 = '2' ∧ c2 = '0')) ∧ c3.isDigit ∧ c4.isDigit ∧
        boundaryB s i ∧ boundaryB s (i + 4)
    then some [c1, c2, c3, c4] else none
  | _ => none

/-- Model of `re.search(r'\b(19|20)\d{2}\b', content)`: the leftmost year match. -/
def findYear (s : Str) : Option Str :=
  (List.range (s.length + 1)).findSome? (fun i => yearAt s i)

/-- Abstract fallback: stripped lines that are nonempty and whose raw length
exceeds 20; first three joined with spaces, truncated to 500 characters. -/
def fallbackAbstract (lines : List Str) : Str :=
  let paragraphs := ((lines.filter (fun l => stripStr l ≠ [] ∧ 20 < l.length)).map stripStr)
  (List.intercalate ((" ").data) (paragraphs.take 3)).take 500

/-- Model of `LiteratureService.extract_metadata_fast`.  Here `content = none` models a read
failure of `read_file_content` (which returns `None` instead of raising); the
`now` argument models `datetime.now().isoformat()`.  Unreadable or empty
content yields the bare `{'file_path': ...}` record of the source. -/
def extract_metadata_fast (now path : Str) (content : Option Str) : MetaDict :=
  match content with
  | none => [(kFilePath, MetaValue.str path)]
  | some c =>
    if c = [] then [(kFilePath, MetaValue.str path)]
    else
      let lines := c.splitOn '\n'
      let a0 := extractAbstract lines
      metaToDict
        { title := extractTitle lines path
        , authors := extractAuthors lines
        , abstract := if a0 = [] then fallbackAbstract lines else a0
        , keywords := extractKeywords lines
        , year := (findYear c).getD []
        , filePath := path
        , extractionTime := now }

/-! ### literature_service.py — metadata cache -/

/-- The cache directory: for each file stem, `none` when no cache file exists,
`some none` when the cache file exists but its JSON is corrupted (`load_json`
returns `None`), and `some (some m)` when it parses to the dict `m`. -/
abbrev CacheMap := Str → Option (Option MetaDict)

/-- Model of `LiteratureService._get_or_extract_metadata`: returns the metadata and the
cache state after the call.  The cached dict is returned verbatim when
`use_cache` is set, the cache file exists, parses, is non-empty and has a
`title` key; otherwise the metadata is freshly extracted and written through. -/
def getOrExtract (cache : CacheMap) (use_cache : Bool) (now path : Str)
    (content : Option Str) : MetaDict × CacheMap :=
  let stem := pathStem path
  let hit : Option MetaDict :=
    if use_cache then
      match cache stem with
      | some (some m) => if m ≠ [] ∧ (List.lookup kTitle m).isSome then some m else none
      | _ => none
    else none
  match hit with
  | some m => (m, cache)
  | none =>
    let m := extract_metadata_fast now path content
    if m ≠ [] then (m, fun s => if s = stem then some (some m) else cache s)
    else (m, cache)

/-! ### literature_service.py — search -/

/-- Model of `LiteratureService._find_matched_keywords`: keywords occurring as
case-insensitive substrings of the content. -/
def find_matched_keywords (keywords : List Str) (content : Str) : List Str :=
  keywords.filter (fun k => isSubstrOf (listToLower k) (listToLower content))

/-- Model of `LiteratureService.supported_formats`. -/
def supported_formats : List Str := [(".txt").data, (".md").data, (".pdf").data]

/-- Model of `file_utils.get_supported_files` over the abstract file system `fs`
(a list of `(path, optional content)` pairs): the paths matching a supported
extension, sorted with Python's string order. -/
def get_supported_files (fs : List (Str × Option Str)) (extensions : List Str) : List Str :=
  sortS lexLt
    (extensions.flatMap (fun ext => (fs.map Prod.fst).filter (fun p => ext.isSuffixOf p)))

/-- One result record of `search_literature`: the metadata dict merged with the
scoring fields.  `src_path` records the enumeration path of the scored file (it
equals the metadata's `file_path` whenever the record was freshly extracted). -/
structure LitRecord where
  src_path : Str
  metadata : MetaDict
  keyword_score : ℝ
  tfidf_score : ℝ
  combined_score : ℝ
  matched_keywords : List Str

/-- The descending comparison on `combined_score` used by the final ranking
sort (`key=lambda x: x['combined_score'], reverse=True`). -/
noncomputable def recLt (a b : LitRecord) : Bool := decide (b.combined_score < a.combined_score)

/-- The body of the second pass of `search_literature` for one file path:
skip unreadable or empty content, obtain metadata through the cache, compute
the two scores, and keep the record only when the combined score exceeds 0.1. -/
noncomputable def searchStep (expanded all_documents : List Str)
    (fs : List (Str × Option Str)) (use_cache : Bool) (now : Str) :
    List LitRecord × CacheMap → Str → List LitRecord × CacheMap :=
  fun st p =>
    match (List.lookup p fs).join with
    | none => st
    | some c =>
      if c = [] then st
      else
        let r := getOrExtract st.2 use_cache now p (some c)
        if r.1 = [] then (st.1, r.2)
        else
          let keyword_score : ℝ := ((calculate_keyword_match_score expanded c : ℚ) : ℝ)
          let tfidf_score : ℝ := calculate_relevance_score expanded c all_documents
          let combined_score : ℝ := keyword_score * 0.6 + tfidf_score * 0.4
          if (0.1 : ℝ) < combined_score then
            (st.1 ++ [{ src_path := p
                      , metadata := r.1
                      , keyword_score := keyword_score
                      , tfidf_score := tfidf_score
                      , combined_score := combined_score
                      , matched_keywords := find_matched_keywords expanded c }], r.2)
          else (st.1, r.2)

/-- Model of `LiteratureService.search_literature`.  Passing `dir = none` models a nonexistent
literature directory (the source logs an error and returns `[]`); otherwise
`dir = some fs` is the directory contents.  First pass collects the corpus,
second pass scores each file, then the records are sorted descending by
combined score (stable) and truncated to `max_results`. -/
noncomputable def search_literature (keywords : List Str)
    (dir : Option (List (Str × Option Str))) (max_results : Nat)
    (cache : CacheMap) (use_cache : Bool) (now : Str) : List LitRecord :=
  match dir with
  | none => []
  | some fs =>
    let files := get_supported_files fs supported_formats
    let all_documents := files.filterMap
      (fun p => match (List.lookup p fs).join with
        | some c => if c = [] then none else some c
        | none => none)
    let expanded := expand_keywords_with_synonyms keywords get_general_synonyms
    let matched := (files.foldl (searchStep expanded all_documents fs use_cache now)
      ([], cache)).1
    (sortS recLt matched).take max_results

/-! ### citation helper (text_utils.generate_citation and
LiteratureService._generate_citation, which are identical) -/

/-- Model of `literature.get(key, default)` for a string-valued field. -/
def metaGetStr (m : MetaDict) (k : Str) (dflt : Str) : Str :=
  match List.lookup k m with
  | some (MetaValue.str s) => s
  | _ => dflt

/-- Model of `literature.get(key, default)` for a list-valued field. -/
def metaGetStrList (m : MetaDict) (k : Str) (dflt : List Str) : List Str :=
  match List.lookup k m with
  | some (MetaValue.strList l) => l
  | _ => dflt

/-- Model of `generate_citation`: the string `author_str ++ " (" ++ year ++ "). " ++ title` where `author_str`
joins at most 3 authors with `", "`, appends `" et al."` when more than 3, and
is the placeholder `未知作者` when the author list is empty. -/
def generate_citation (lit : MetaDict) : Str :=
  let authors := metaGetStrList lit kAuthors []
  let title := metaGetStr lit kTitle (("未知标题").data)
  let year := metaGetStr lit kYear []
  let author_str :=
    if authors ≠ [] then
      List.intercalate ((", ").data) (authors.take 3) ++
        (if 3 < authors.length then (" et al.").data else [])
    else ("未知作者").data
  author_str ++ (" (").data ++ year ++ ("). ").data ++ title

/-- The citation format as worded by the spec (§4.7): up to 3 authors
comma-joined, `et al.` appended if more, an unknown-author placeholder when
empty, then the parenthesized year, a period, and the title. -/
def citationSpecFormat (authors : List Str) (year title : Str) : Str :=
  (if authors = [] then ("未知作者").data
   else
     List.intercalate ((", ").data) (authors.take 3) ++
       (if 3 < authors.length then (" et al.").data else [])) ++
    (" (").data ++ year ++ ("). ").data ++ title

/-- All elements of a list satisfy `p` (binder-free form of `∀ r ∈ l, p r`). -/
def ListAll (p : α → Prop) : List α → Prop
  | [] => True
  | x :: l => p x ∧ ListAll p l

/-! ## Lemmas -/

theorem listAll_iff (p : α → Prop) : ∀ l : List α, ListAll p l ↔ ∀ x ∈ l, p x
  | [] => by simp [ListAll]
  | x :: l => by simp [ListAll, listAll_iff p l]

theorem insertS_perm (lt : α → α → Bool) (x : α) :
    ∀ l : List α, (insertS lt x l).Perm (x :: l)
  | [] => List.Perm.refl _
  | y :: ys => by
    unfold insertS
    split
    · exact ((insertS_perm lt x ys).cons y).trans (List.Perm.swap x y ys)
    · exact List.Perm.refl _

theorem sortS_perm (lt : α → α → Bool) : ∀ l : List α, (sortS lt l).Perm l
  | [] => List.Perm.refl _
  | x :: l => by
    have h1 := insertS_perm lt x (sortS lt l)
    exact h1.trans ((sortS_perm lt l).cons x)

theorem mem_insertS (lt : α → α → Bool) (x : α) (l : List α) (z : α) :
    z ∈ insertS lt x l ↔ z = x ∨ z ∈ l := by
  rw [(insertS_perm lt x l).mem_iff]
  simp

theorem mem_sortS (lt : α → α → Bool) (l : List α) (z : α) :
    z ∈ sortS lt l ↔ z ∈ l := (sortS_perm lt l).mem_iff

theorem pairwise_insertS_sorted (lt : α → α → Bool)
    (hasym : ∀ a b, lt a b = true → lt b a = false)
    (htrans : ∀ a b c, lt a c = true → lt a b = true ∨ lt b c = true) (x : α) :
    ∀ l : List α, List.Pairwise (fun a b => lt b a = false) l →
      List.Pairwise (fun a b => lt b a = false) (insertS lt x l)
  | [], _ => by simp [insertS]
  | y :: ys, h => by
    rcases List.pairwise_cons.1 h with ⟨hy, hys⟩
    unfold insertS
    split
    · rename_i hlt
      refine List.pairwise_cons.2 ⟨?_, pairwise_insertS_sorted lt hasym htrans x ys hys⟩
      intro z hz
      rcases (mem_insertS lt x ys z).1 hz with rfl | hzys
      · exact hasym _ _ hlt
      · exact hy z hzys
    · rename_i hnlt
      have hxy : lt y x = false := by
        cases hxy : lt y x
        · rfl
        · exact absurd hxy (by simp [hnlt])
      refine List.pairwise_cons.2 ⟨?_, h⟩
      intro z hz
      rcases List.mem_cons.1 hz with rfl | hzys
      · exact hxy
      · cases hzx : lt z x
        · rfl
        · rcases htrans z y x hzx with hzy | hyx
          · exact absurd hzy (by simp [hy z hzys])
          · exact absurd hyx (by simp [hxy])

theorem pairwise_sortS_sorted (lt : α → α → Bool)
    (hasym : ∀ a b, lt a b = true → lt b a = false)
    (htrans : ∀ a b c, lt a c = true → lt a b = true ∨ lt b c = true) :
    ∀ l : List α, List.Pairwise (fun a b => lt b a = false) (sortS lt l)
  | [] => List.Pairwise.nil
  | x :: l =>
    pairwise_insertS_sorted lt hasym htrans x (sortS lt l) (pairwise_sortS_sorted lt hasym htrans l)

theorem pairwise_insertS_stable (lt : α → α → Bool) (R : α → α → Prop) (x : α) :
    ∀ l : List α, List.Pairwise (fun u v => lt u v = false → R u v) l →
      (∀ z ∈ l, R x z) →
      List.Pairwise (fun u v => lt u v = false → R u v) (insertS lt x l)
  | [], _, _ => by simp [insertS]
  | y :: ys, h, hall => by
    rcases List.pairwise_cons.1 h with ⟨hy, hys⟩
    unfold insertS
    split
    · rename_i hlt
      refine List.pairwise_cons.2
        ⟨?_, pairwise_insertS_stable lt R x ys hys (fun z hz => hall z (List.mem_cons_of_mem _ hz))⟩
      intro z hz
      rcases (mem_insertS lt x ys z).1 hz with rfl | hzys
      · intro hf
        exact absurd hlt (by simp [hf])
      · exact hy z hzys
    · refine List.pairwise_cons.2 ⟨?_, h⟩
      intro z hz _
      exact hall z hz

theorem pairwise_sortS_stable (lt : α → α → Bool) (R : α → α → Prop) :
    ∀ l : List α, List.Pairwise R l →
      List.Pairwise (fun u v => lt u v = false → R u v) (sortS lt l)
  | [], _ => List.Pairwise.nil
  | x :: l, h => by
    rcases List.pairwise_cons.1 h with ⟨hx, hl⟩
    refine pairwise_insertS_stable lt R x (sortS lt l) (pairwise_sortS_stable lt R l hl) ?_
    intro z hz
    exact hx z ((mem_sortS lt l z).1 hz)

theorem lexLt_asym : ∀ a b : Str, lexLt a b = true → lexLt b a = false
  | [], [], h => by simp [lexLt] at h
  | [], _ :: _, _ => by simp [lexLt]
  | _ :: _, [], h => by simp [lexLt] at h
  | a :: as, b :: bs, h => by
    unfold lexLt at h ⊢
    rcases lt_trichotomy a b with hab | hab | hab
    · simp [hab, lt_asymm hab]
    · subst hab
      simp only [lt_irrefl, if_false] at h ⊢
      exact lexLt_asym as bs h
    · simp [hab, lt_asymm hab] at h

theorem lexLt_transD : ∀ a b c : Str, lexLt a c = true → lexLt a b = true ∨ lexLt b c = true
  | [], [], _, h => Or.inr h
  | [], _ :: _, _, _ => Or.inl (by simp [lexLt])
  | _ :: _, _, [], h => by simp [lexLt] at h
  | _ :: _, [], _ :: _, _ => Or.inr (by simp [lexLt])
  | a :: as, b :: bs, c :: cs, h => by
    unfold lexLt at h ⊢
    rcases lt_trichotomy a b with hab | hab | hab
    · left; simp [hab]
    · subst hab
      rcases lt_trichotomy a c with hac | hac | hac
      · right; simp [hac]
      · subst hac
        simp only [lt_irrefl, if_false] at h ⊢
        rcases lexLt_transD as bs cs h with h1 | h1
        · exact Or.inl h1
        · exact Or.inr h1
      · simp [lt_asymm hac, hac] at h
    · rcases lt_trichotomy a c with hac | hac | hac
      · right; simp [lt_trans hab hac]
      · subst hac
        right; simp [hab]
      · simp [lt_asymm hac, hac] at h

theorem recLt_asym : ∀ a b : LitRecord, recLt a b = true → recLt b a = false := by
  intro a b h
  simp only [recLt, decide_eq_true_eq] at h
  simp only [recLt, decide_eq_false_iff_not]
  exact lt_asymm h

theorem recLt_transD : ∀ a b c : LitRecord,
    recLt a c = true → recLt a b = true ∨ recLt b c = true := by
  intro a b c h
  simp only [recLt, decide_eq_true_eq] at h ⊢
  rcases lt_or_le b.combined_score a.combined_score with h1 | h1
  · exact Or.inl h1
  · exact Or.inr (lt_of_lt_of_le h h1)

theorem hasWholeWordMatch_nil (k : Str) : hasWholeWordMatch k [] = false := by
  have hb : boundaryB [] 0 = false := rfl
  have hr : List.range 1 = [0] := rfl
  simp only [hasWholeWordMatch, List.length_nil, Nat.zero_add, hr, List.any_cons,
    List.any_nil, wordMatchAt, hb, Bool.and_false, Bool.false_and, Bool.or_false]

/-- C2: for every keyword list and document text, `calculate_keyword_match_score`
lies in [0,1]; it is 0 when the keyword list is empty or the text is empty; it
equals the fraction of keywords that occur in the text as whole-word,
case-insensitive matches; and (for a nonempty keyword list, whose empty-list
value the claim fixes separately as 0) it equals 1 iff every keyword in the
list so matches. -/
theorem c2_keyword_match_score (keywords : List Str) (text : Str) :
    0 ≤ calculate_keyword_match_score keywords text ∧
    calculate_keyword_match_score keywords text ≤ 1 ∧
    (keywords = [] ∨ text = [] → calculate_keyword_match_score keywords text = 0) ∧
    calculate_keyword_match_score keywords text =
      ((keywords.countP (fun k => hasWholeWordMatch (listToLower k) (listToLower text)) : ℚ)) /
        (keywords.length : ℚ) ∧
    (keywords ≠ [] →
      (calculate_keyword_match_score keywords text = 1 ↔
        ∀ k ∈ keywords, hasWholeWordMatch (listToLower k) (listToLower text) = true)) := by
  by_cases h : keywords = [] ∨ text = []
  · have hz : calculate_keyword_match_score keywords text = 0 := by
      simp [calculate_keyword_match_score, h]
    have hcount : keywords.countP
        (fun k => hasWholeWordMatch (listToLower k) (listToLower text)) = 0 := by
      rcases h with h | h
      · simp [h]
      · subst h
        refine List.countP_eq_zero.2 ?_
        intro k _
        simp [listToLower, hasWholeWordMatch_nil]
    refine ⟨by rw [hz], by rw [hz]; norm_num, fun _ => hz, ?_, ?_⟩
    · rw [hz, hcount]
      simp
    · intro hk
      have htext : text = [] := by
        rcases h with h | h
        · exact absurd h hk
        · exact h
      refine iff_of_false (by rw [hz]; norm_num) ?_
      intro hall
      rcases keywords with _ | ⟨k0, krest⟩
      · exact hk rfl
      · have := hall k0 (List.mem_cons_self _ _)
        rw [htext] at this
        simp [listToLower, hasWholeWordMatch_nil] at this
  · push_neg at h
    obtain ⟨hk, ht⟩ := h
    have hlen : 0 < keywords.length := List.length_pos.2 hk
    have hlenQ : (0 : ℚ) < (keywords.length : ℚ) := by exact_mod_cast hlen
    have hval : calculate_keyword_match_score keywords text =
        ((keywords.countP
          (fun k => hasWholeWordMatch (listToLower k) (listToLower text)) : ℚ)) /
          (keywords.length : ℚ) := by
      rw [calculate_keyword_match_score, if_neg (by push_neg; exact ⟨hk, ht⟩)]
    refine ⟨?_, ?_, fun hc => absurd hc (by push_neg; exact ⟨hk, ht⟩), hval, ?_⟩
    · rw [hval]
      positivity
    · rw [hval]
      rw [div_le_one hlenQ]
      exact_mod_cast List.countP_le_length _
    · intro _
      rw [hval, div_eq_one_iff_eq (ne_of_gt hlenQ)]
      rw [show ((keywords.countP
        (fun k => hasWholeWordMatch (listToLower k) (listToLower text)) : ℚ)) =
          ((keywords.countP
            (fun k => hasWholeWordMatch (listToLower k) (listToLower text)) : Nat) : ℚ) from rfl]
      rw [Nat.cast_inj]
      exact List.countP_eq_length

theorem c2_keyword_match_score_witness :
    ([("machine").data] ≠ ([] : List Str)) ∧
      (calculate_keyword_match_score [("machine").data] (("Machine learning").data) = 1 ↔
        ∀ k ∈ [("machine").data],
          hasWholeWordMatch (listToLower k) (listToLower (("Machine learning").data)) = true) :=
  ⟨by decide, (c2_keyword_match_score [("machine").data] (("Machine learning").data)).2.2.2.2
    (by decide)⟩

/-- C9 counterexample: for the record with authors `["A"]`, year `"2020"` and
title `"T"`, the citation helper returns `"A (2020). T"` — with a space before
the parenthesis — which differs from the claim's exact format
`"<authors>(<year>). <title>"`, i.e. `"A(2020). T"`. -/
theorem c9_citation_counterexample :
    generate_citation
        [(kAuthors, MetaValue.strList [("A").data]),
         (kYear, MetaValue.str (("2020").data)),
         (kTitle, MetaValue.str (("T").data))] = ("A (2020). T").data ∧
      ("A (2020). T").data ≠ ("A(2020). T").data :=
  ⟨by decide, by decide⟩

/-- C9 amended: for every literature record, the citation helper returns
exactly `"<authors> (<year>). <title>"` — with a single space between the
author part and the parenthesized year — where the author part is the first at
most 3 authors comma-joined, with `" et al."` appended when there are more than
3, and the placeholder `未知作者` ("unknown author") when the author list is
empty. -/
theorem c9_citation_amended (lit : MetaDict) :
    generate_citation lit =
      citationSpecFormat (metaGetStrList lit kAuthors [])
        (metaGetStr lit kYear []) (metaGetStr lit kTitle (("未知标题").data)) := by
  unfold generate_citation citationSpecFormat
  by_cases h : metaGetStrList lit kAuthors [] = []
  · simp [h]
  · simp [h]

/-- C5 counterexample: for the document
`"Abstract: This paper studies X.\nIntroduction..."`, the fast extractor's
abstract is `"Introduction..."` (the line after the marker line), which even
after whitespace normalization differs from the claimed
`"This paper studies X."`. -/
theorem c5_abstract_counterexample :
    List.lookup kAbstract
        (extract_metadata_fast (("t0").data) (("p.txt").data)
          (some (("Abstract: This paper studies X.\nIntroduction...").data))) =
      some (MetaValue.str (("Introduction...").data)) ∧
    clean_text (("Introduction...").data) ≠ clean_text (("This paper studies X.").data) :=
  ⟨by decide, by decide⟩

/-- C5 amended: for that document the fast extractor's abstract field equals
`"Introduction..."` — the accumulation of the non-empty lines that follow the
line containing the abstract marker (the marker line's own text after
`"Abstract:"` is not captured). -/
theorem c5_abstract_amended :
    List.lookup kAbstract
        (extract_metadata_fast (("t0").data) (("p.txt").data)
          (some (("Abstract: This paper studies X.\nIntroduction...").data))) =
      some (MetaValue.str (("Introduction...").data)) := by
  decide

theorem extract_metadata_fast_ne_nil (now path : Str) (content : Option Str) :
    extract_metadata_fast now path content ≠ [] := by
  cases content with
  | none => simp [extract_metadata_fast]
  | some c =>
    by_cases hc : c = []
    · simp [extract_metadata_fast, hc]
    · simp [extract_metadata_fast, hc, metaToDict]

/-- C7 counterexample: for empty content the fast extractor returns the bare
`{'file_path': ...}` record — the `title` field (and every other metadata
field) is absent, so the shape is not the same as for non-empty input. -/
theorem c7_shape_counterexample :
    extract_metadata_fast (("t0").data) (("p.txt").data) (some []) =
        [(kFilePath, MetaValue.str (("p.txt").data))] ∧
      List.lookup kTitle
        (extract_metadata_fast (("t0").data) (("p.txt").data) (some [])) = none :=
  ⟨by decide, by decide⟩

/-- C7 amended: the fast extractor is total (never an error), and whenever the
file's content is readable and non-empty the returned record has exactly the
eight metadata fields, in order, each with a value of its correct type (the
serialization of a `FastMeta` record whose `file_path` is the input path and
whose `extraction_time` is the call time); for unreadable or empty content it
instead returns the record containing only `file_path`. -/
theorem c7_shape_amended (now path : Str) (content : Option Str) :
    (∀ c, content = some c → c ≠ [] →
      ∃ fm : FastMeta, extract_metadata_fast now path content = metaToDict fm ∧
        fm.filePath = path ∧ fm.extractionTime = now ∧
        (extract_metadata_fast now path content).map Prod.fst =
          [kTitle, kAuthors, kAbstract, kKeywords, kYear, kFilePath,
            kExtractionTime, kExtractionMethod]) ∧
    (content = none ∨ content = some [] →
      extract_metadata_fast now path content = [(kFilePath, MetaValue.str path)]) := by
  constructor
  · rintro c rfl hc
    have he : extract_metadata_fast now path (some c) = metaToDict
        { title := extractTitle (c.splitOn '\n') path
        , authors := extractAuthors (c.splitOn '\n')
        , abstract :=
            if extractAbstract (c.splitOn '\n') = [] then fallbackAbstract (c.splitOn '\n')
            else extractAbstract (c.splitOn '\n')
        , keywords := extractKeywords (c.splitOn '\n')
        , year := (findYear c).getD []
        , filePath := path
        , extractionTime := now } := by
      simp only [extract_metadata_fast]
      rw [if_neg hc]
    exact ⟨_, he, rfl, rfl, by rw [he]; rfl⟩
  · rintro (rfl | rfl)
    · rfl
    · rfl

theorem c7_shape_witness :
    (("x y z extended content").data ≠ ([] : Str)) ∧
      (∃ fm : FastMeta,
        extract_metadata_fast (("t0").data) (("p.txt").data)
            (some (("x y z extended content").data)) = metaToDict fm ∧
          fm.filePath = ("p.txt").data ∧ fm.extractionTime = ("t0").data ∧
          (extract_metadata_fast (("t0").data) (("p.txt").data)
              (some (("x y z extended content").data))).map Prod.fst =
            [kTitle, kAuthors, kAbstract, kKeywords, kYear, kFilePath,
              kExtractionTime, kExtractionMethod]) :=
  ⟨by decide,
    (c7_shape_amended (("t0").data) (("p.txt").data)
      (some (("x y z extended content").data))).1 _ rfl (by decide)⟩

/-- C4 counterexample: with `use_cache` set and a cache entry `{"title": ""}`
(empty title) for the file's stem, `_get_or_extract_metadata` returns the
cached record verbatim — although the claim requires a fresh extraction in this
case (the cache check tests only the presence of the `title` key, not that it
is non-empty), and the fresh extraction differs from the cached record. -/
theorem c4_cache_counterexample :
    (getOrExtract
        (fun s => if s = pathStem (("p.txt").data) then
          some (some [(kTitle, MetaValue.str [])]) else none)
        true (("t0").data) (("p.txt").data) (some (("Hello world sample line").data))).1 =
      [(kTitle, MetaValue.str [])] ∧
    [(kTitle, MetaValue.str ([] : Str))] ≠
      extract_metadata_fast (("t0").data) (("p.txt").data)
        (some (("Hello world sample line").data)) :=
  ⟨by decide, by decide⟩

/-- C4 amended: with `use_cache` set: if the cache file for the source file's
stem exists and parses as a non-empty JSON object that contains a `title` key
(its value may be empty), the cached object is returned verbatim and the cache
is unchanged; otherwise — including a missing entry, corrupted JSON, an empty
object, or an object without a `title` key — the result equals calling the
fast extractor directly on that file, and the cache entry is overwritten with
it. -/
theorem c4_cache_amended (cache : CacheMap) (now path : Str) (content : Option Str) :
    (∀ m, cache (pathStem path) = some (some m) → m ≠ [] →
      (List.lookup kTitle m).isSome = true →
      getOrExtract cache true now path content = (m, cache)) ∧
    ((¬ ∃ m, cache (pathStem path) = some (some m) ∧ m ≠ [] ∧
        (List.lookup kTitle m).isSome = true) →
      (getOrExtract cache true now path content).1 =
          extract_metadata_fast now path content ∧
        (getOrExtract cache true now path content).2 (pathStem path) =
          some (some (extract_metadata_fast now path content))) := by
  constructor
  · intro m hm hne htitle
    simp [getOrExtract, hm, hne, htitle]
  · intro hmiss
    have hext := extract_metadata_fast_ne_nil now path content
    cases hcs : cache (pathStem path) with
    | none =>
      refine ⟨by simp [getOrExtract, hcs, hext], ?_⟩
      simp [getOrExtract, hcs, hext]
    | some o =>
      cases o with
      | none =>
        refine ⟨by simp [getOrExtract, hcs, hext], ?_⟩
        simp [getOrExtract, hcs, hext]
      | some m =>
        have hcond : ¬ (¬ m = [] ∧ (List.lookup kTitle m).isSome = true) := by
          intro ⟨h1, h2⟩
          exact hmiss ⟨m, hcs, h1, h2⟩
        constructor
        · simp only [getOrExtract, hcs]
          simp only [hext, ne_eq, not_false_eq_true, if_true]
          rw [if_neg hcond]
        · simp only [getOrExtract, hcs]
          simp only [hext, ne_eq, not_false_eq_true, if_true]
          rw [if_neg hcond]
          simp

theorem c4_cache_witness :
    ((fun s => if s = pathStem (("p.txt").data) then
        some (some [(kTitle, MetaValue.str (("T").data))]) else none) :
        CacheMap) (pathStem (("p.txt").data)) =
        some (some [(kTitle, MetaValue.str (("T").data))]) ∧
      getOrExtract
        (fun s => if s = pathStem (("p.txt").data) then
          some (some [(kTitle, MetaValue.str (("T").data))]) else none)
        true (("t0").data) (("p.txt").data) (some (("hello").data)) =
        ([(kTitle, MetaValue.str (("T").data))],
          fun s => if s = pathStem (("p.txt").data) then
            some (some [(kTitle, MetaValue.str (("T").data))]) else none) ∧
      (getOrExtract (fun _ => none) true (("t0").data) (("p.txt").data)
          (some (("hello").data))).1 =
        extract_metadata_fast (("t0").data) (("p.txt").data) (some (("hello").data)) :=
  ⟨by decide,
    (c4_cache_amended
        (fun s => if s = pathStem (("p.txt").data) then
          some (some [(kTitle, MetaValue.str (("T").data))]) else none)
        (("t0").data) (("p.txt").data) (some (("hello").data))).1
      [(kTitle, MetaValue.str (("T").data))]
      (by decide) (by decide) (by decide),
    ((c4_cache_amended (fun _ => none) (("t0").data) (("p.txt").data)
        (some (("hello").data))).2 (by simp)).1⟩

theorem dropWhile_eq_drop (p : α → Bool) : ∀ l : List α, ∃ k, List.dropWhile p l = List.drop k l
  | [] => ⟨0, rfl⟩
  | a :: l => by
    by_cases h : p a
    · obtain ⟨k, hk⟩ := dropWhile_eq_drop p l
      refine ⟨k + 1, ?_⟩
      rw [List.dropWhile_cons, if_pos h, hk]
      rfl
    · exact ⟨0, by rw [List.dropWhile_cons, if_neg h]; rfl⟩

theorem dropWhile_length_le (p : α → Bool) (l : List α) :
    (List.dropWhile p l).length ≤ l.length := by
  obtain ⟨k, hk⟩ := dropWhile_eq_drop p l
  rw [hk, List.length_drop]
  exact Nat.sub_le _ _

theorem isPrefixOf_append (w t : Str) : w.isPrefixOf (w ++ t) = true := by
  induction w with
  | nil => cases t <;> rfl
  | cons a as ih => simp [List.isPrefixOf, ih]

theorem tokenizeF_pfx_drop :
    ∀ (n : Nat) (s : Str), s.length ≤ n → ∀ w ∈ tokenizeF n s,
      ∃ i, w.isPrefixOf (s.drop i) = true := by
  intro n
  induction n with
  | zero => intro s _ w hw; simp [tokenizeF] at hw
  | succ n ih =>
    intro s hs w hw
    cases s with
    | nil => simp [tokenizeF] at hw
    | cons c rest =>
      rw [tokenizeF] at hw
      have hrest : rest.length ≤ n := by
        simpa using Nat.le_of_succ_le_succ hs
      by_cases hc : isWordChar c
      · rw [if_pos hc] at hw
        rcases List.mem_cons.1 hw with rfl | hw2
        · refine ⟨0, ?_⟩
          simp only [List.drop_zero]
          nth_rewrite 2 [← List.takeWhile_append_dropWhile isWordChar (c :: rest)]
          exact isPrefixOf_append _ _
        · have hlen : (List.dropWhile isWordChar rest).length ≤ n :=
            le_trans (dropWhile_length_le _ _) hrest
          obtain ⟨i, hi⟩ := ih (List.dropWhile isWordChar rest) hlen w hw2
          obtain ⟨k, hk⟩ := dropWhile_eq_drop isWordChar rest
          refine ⟨i + k + 1, ?_⟩
          rw [hk, List.drop_drop] at hi
          rw [show List.drop (i + k + 1) (c :: rest) = List.drop (i + k) rest from rfl]
          rwa [Nat.add_comm k i] at hi
      · rw [if_neg hc] at hw
        obtain ⟨i, hi⟩ := ih rest hrest w hw
        exact ⟨i + 1, hi⟩

theorem mem_tokenize_isSubstrOf (w s : Str) (hw : w ∈ tokenize s) :
    isSubstrOf w s = true := by
  obtain ⟨i, hi⟩ := tokenizeF_pfx_drop s.length s (le_refl _) w hw
  by_cases hle : i ≤ s.length
  · rw [isSubstrOf, List.any_eq_true]
    exact ⟨i, List.mem_range.2 (Nat.lt_succ_of_le hle), hi⟩
  · push_neg at hle
    rw [isSubstrOf, List.any_eq_true]
    refine ⟨s.length, List.mem_range.2 (Nat.lt_succ_self _), ?_⟩
    rw [List.drop_eq_nil_of_le (le_refl _)]
    rw [List.drop_eq_nil_of_le (le_of_lt hle)] at hi
    exact hi

theorem tfidfTerm_eq_noGuard (docs : List Str) (dw : List Str)
    (h : ∀ w, 0 < dw.count w →
      0 < (docs.filter (fun doc => isSubstrOf w (listToLower doc))).length) :
    tfidfTerm docs dw = tfidfTermNoGuard docs dw := by
  funext w
  simp only [tfidfTerm, tfidfTermNoGuard]
  by_cases htf : 0 < (dw.count w : ℝ) / (dw.length : ℝ)
  · rw [if_pos htf, if_pos htf, if_pos ?_]
    refine h w ?_
    rcases Nat.eq_zero_or_pos (dw.count w) with h0 | h0
    · rw [h0] at htf
      norm_num at htf
    · exact h0
  · rw [if_neg htf, if_neg htf]

/-- C6: `calculate_relevance_score` is total and never takes a logarithm of
zero nor divides by zero: an empty document yields score 0 (the early return
guards the division by the token count), and under the precondition that the
target document is a member of the corpus list, every keyword token with a
positive term frequency occurs in at least one corpus document, so the
`docs_containing_word > 0` guard never fails and the score coincides with the
same computation with that guard removed. -/
theorem c6_relevance_score_safety :
    (∀ (keywords : List Str) (docs : List Str),
      calculate_relevance_score keywords [] docs = 0) ∧
    (∀ (keywords : List Str) (d : Str) (docs : List Str), d ∈ docs →
      (∀ w, 0 < (tokenize (listToLower d)).count w →
        0 < (docs.filter (fun doc => isSubstrOf w (listToLower doc))).length) ∧
      calculate_relevance_score keywords d docs =
        calculate_relevance_score_noGuard keywords d docs) := by
  constructor
  · intro keywords docs
    rfl
  · intro keywords d docs hd
    have himp : ∀ w, 0 < (tokenize (listToLower d)).count w →
        0 < (docs.filter (fun doc => isSubstrOf w (listToLower doc))).length := by
      intro w hw
      have hmem : w ∈ tokenize (listToLower d) := List.count_pos_iff.1 hw
      have hsub := mem_tokenize_isSubstrOf w (listToLower d) hmem
      exact List.length_pos_of_mem (List.mem_filter.2 ⟨hd, hsub⟩)
    refine ⟨himp, ?_⟩
    simp only [calculate_relevance_score, calculate_relevance_score_noGuard,
      tfidfTerm_eq_noGuard docs (tokenize (listToLower d)) himp]

theorem c6_relevance_score_safety_witness :
    calculate_relevance_score [("a").data] [] [("a").data] = 0 ∧
      ((("a").data ∈ [("a").data]) ∧
        calculate_relevance_score [("a").data] (("a").data) [("a").data] =
          calculate_relevance_score_noGuard [("a").data] (("a").data) [("a").data]) :=
  ⟨c6_relevance_score_safety.1 [("a").data] [("a").data],
    ⟨by decide, (c6_relevance_score_safety.2 [("a").data] (("a").data) [("a").data]
      (by decide)).2⟩⟩

theorem sum_map_flatMap (f : Str → ℝ) (g : Str → List Str) :
    ∀ l : List Str, ((l.flatMap g).map f).sum = (l.map (fun x => ((g x).map f).sum)).sum
  | [] => by simp
  | x :: l => by
    simp only [List.flatMap_cons, List.map_append, List.sum_append, List.map_cons,
      List.sum_cons, sum_map_flatMap f g l]

theorem relevance_score_eq_sum (keywords : List Str) (d : Str) (docs : List Str) :
    calculate_relevance_score keywords d docs =
      ((kwTokens keywords).map (tfidfTerm docs (tokenize (listToLower d)))).sum := by
  simp only [calculate_relevance_score, kwTokens]
  by_cases h : (tokenize (listToLower d)).length = 0
  · rw [if_pos h]
    rw [List.length_eq_zero] at h
    refine (List.sum_eq_zero ?_).symm
    intro x hx
    obtain ⟨w, _, rfl⟩ := List.mem_map.1 hx
    simp only [tfidfTerm, h, List.count_nil, List.length_nil, Nat.cast_zero, zero_div,
      lt_irrefl, if_false]
  · rw [if_neg h]
    exact (sum_map_flatMap _ _ keywords).symm

theorem tfidfTerm_nonneg (docs dw : List Str) (w : Str) : 0 ≤ tfidfTerm docs dw w := by
  simp only [tfidfTerm]
  by_cases htf : 0 < (dw.count w : ℝ) / (dw.length : ℝ)
  · rw [if_pos htf]
    by_cases hdf : 0 < (docs.filter (fun doc => isSubstrOf w (listToLower doc))).length
    · rw [if_pos hdf]
      refine mul_nonneg (le_of_lt htf) (Real.log_nonneg ?_)
      rw [one_le_div (by exact_mod_cast hdf)]
      exact_mod_cast List.length_filter_le _ docs
    · rw [if_neg hdf]
  · rw [if_neg htf]

theorem relevance_sum_nonneg (docs dw : List Str) (L : List Str) :
    0 ≤ (L.map (tfidfTerm docs dw)).sum := by
  refine List.sum_nonneg ?_
  intro x hx
  obtain ⟨w, _, rfl⟩ := List.mem_map.1 hx
  exact tfidfTerm_nonneg docs dw w

theorem sum_map_ite_count (b : Str) (v : ℝ) :
    ∀ L : List Str, (L.map (fun w => if w = b then v else 0)).sum = (L.count b : ℝ) * v
  | [] => by simp
  | w :: L => by
    simp only [List.map_cons, List.sum_cons, sum_map_ite_count b v L, List.count_cons]
    by_cases h : w = b
    · subst h
      simp only [if_pos rfl, beq_self_eq_true, if_true]
      push_cast
      ring
    · rw [if_neg h, if_neg (by simpa using h)]
      push_cast
      ring

theorem sum_map_combine (f g : Str → ℝ) (c : ℝ) :
    ∀ L : List Str, (L.map (fun w => c * f w + g w)).sum = c * (L.map f).sum + (L.map g).sum
  | [] => by simp
  | w :: L => by
    simp only [List.map_cons, List.sum_cons, sum_map_combine f g c L]
    ring

theorem tfidfTerm_append_replicate (docs : List Str) (A : List Str) (b : Str) (k : Nat)
    (hk : k ≠ 0) (hbA : b ∉ A)
    (hdf : 0 < (docs.filter (fun doc => isSubstrOf b (listToLower doc))).length) (w : Str) :
    tfidfTerm docs (A ++ List.replicate k b) w =
      ((A.length : ℝ) / ((A.length + k : ℕ) : ℝ)) * tfidfTerm docs A w +
        (if w = b then
          ((k : ℝ) / ((A.length + k : ℕ) : ℝ)) *
            Real.log ((docs.length : ℝ) /
              (((docs.filter (fun doc => isSubstrOf b (listToLower doc))).length : ℝ)))
         else 0) := by
  have hlen : (A ++ List.replicate k b).length = A.length + k := by
    rw [List.length_append, List.length_replicate]
  have hkpos : 0 < k := Nat.pos_of_ne_zero hk
  have hLpos : (0 : ℝ) < ((A.length + k : ℕ) : ℝ) := by
    exact_mod_cast Nat.add_pos_right A.length hkpos
  by_cases hw : w = b
  · rw [hw]
    have hcount : (A ++ List.replicate k b).count b = k := by
      rw [List.count_append, List.count_eq_zero_of_not_mem hbA, List.count_replicate]
      simp
    have hcountA : A.count b = 0 := List.count_eq_zero_of_not_mem hbA
    simp only [tfidfTerm, hcount, hcountA, hlen, Nat.cast_zero, zero_div, lt_irrefl, if_false,
      mul_zero, zero_add, eq_self_iff_true, if_true]
    rw [if_pos (div_pos (by exact_mod_cast hkpos) hLpos), if_pos hdf]
  · have hcount : (A ++ List.replicate k b).count w = A.count w := by
      rw [List.count_append, List.count_replicate, if_neg (by simpa using Ne.symm hw)]
      simp
    simp only [tfidfTerm, hcount, hlen, if_neg hw, add_zero]
    rcases Nat.eq_zero_or_pos (A.count w) with h0 | h0
    · simp only [h0, Nat.cast_zero, zero_div, lt_irrefl, if_false, mul_zero]
    · have hA : A ≠ [] := by
        intro hAe
        rw [hAe] at h0
        simp at h0
      have hT : (0 : ℝ) < (A.length : ℝ) := by
        exact_mod_cast List.length_pos.2 hA
      have htf : (0 : ℝ) < (A.count w : ℝ) / (A.length : ℝ) := by
        apply div_pos _ hT
        exact_mod_cast h0
      have htf2 : (0 : ℝ) < (A.count w : ℝ) / ((A.length + k : ℕ) : ℝ) := by
        apply div_pos _ hLpos
        exact_mod_cast h0
      rw [if_pos htf2, if_pos htf]
      by_cases hdfw : 0 < (docs.filter (fun doc => isSubstrOf w (listToLower doc))).length
      · rw [if_pos hdfw, if_pos hdfw]
        field_simp
        ring
      · rw [if_neg hdfw, if_neg hdfw, mul_zero]

/-- C3 counterexample: with the fixed corpus `["a"]` and keyword list `["a"]`,
the document `"b"` contains no keyword token and scores 0; the document
`"b a"` — obtained by adding one occurrence of the previously absent keyword
token `"a"` — also scores 0, because `"a"` occurs in every corpus document and
its IDF is `ln 1 = 0`.  So the TF-IDF score does not strictly increase when a
previously absent keyword token is added. -/
theorem c3_tfidf_counterexample :
    tokenize (listToLower (("b a").data)) =
        tokenize (listToLower (("b").data)) ++ List.replicate 1 (("a").data) ∧
      (("a").data ∉ tokenize (listToLower (("b").data))) ∧
      (("a").data ∈ kwTokens [("a").data]) ∧
      calculate_relevance_score [("a").data] (("b").data) [("a").data] = 0 ∧
      calculate_relevance_score [("a").data] (("b a").data) [("a").data] = 0 := by
  refine ⟨by decide, by decide, by decide, ?_, ?_⟩
  · rw [relevance_score_eq_sum]
    have h1 : kwTokens [("a").data] = [("a").data] := rfl
    have h2 : tokenize (listToLower (("b").data)) = [("b").data] := rfl
    rw [h1, h2]
    simp only [List.map_cons, List.map_nil, List.sum_cons, List.sum_nil, add_zero]
    have hc : List.count (("a").data) [("b").data] = 0 := by decide
    simp [tfidfTerm, hc]
  · rw [relevance_score_eq_sum]
    have h1 : kwTokens [("a").data] = [("a").data] := rfl
    have h2 : tokenize (listToLower (("b a").data)) = [("b").data, ("a").data] := rfl
    rw [h1, h2]
    simp only [List.map_cons, List.map_nil, List.sum_cons, List.sum_nil, add_zero]
    have hc : List.count (("a").data) [("b").data, ("a").data] = 1 := by decide
    have hf : (([("a").data] : List Str).filter
        (fun doc => isSubstrOf (("a").data) (listToLower doc))).length = 1 := by decide
    simp only [tfidfTerm, hc, hf, List.length_cons, List.length_nil]
    norm_num

/-- C3 amended: for every fixed corpus and keyword list, the TF-IDF score of
`calculate_relevance_score` is 0 for a document containing none of the keyword
tokens; and adding occurrences of a previously absent keyword token to the
document, all else equal, strictly increases the score **provided** the added
token's IDF, `ln(corpus size / documents containing it)`, strictly exceeds the
document's current score (in particular this fails when the token occurs in
every corpus document, where the IDF is 0, or when the dilution of the other
term frequencies outweighs the small IDF). -/
theorem c3_tfidf_monotonicity :
    (∀ (keywords : List Str) (d : Str) (docs : List Str),
      (∀ w ∈ kwTokens keywords, (tokenize (listToLower d)).count w = 0) →
      calculate_relevance_score keywords d docs = 0) ∧
    (∀ (keywords : List Str) (d dp : Str) (docs : List Str) (b : Str) (k : Nat),
      tokenize (listToLower dp) = tokenize (listToLower d) ++ List.replicate k b →
      k ≠ 0 →
      b ∉ tokenize (listToLower d) →
      b ∈ kwTokens keywords →
      calculate_relevance_score keywords d docs <
        Real.log ((docs.length : ℝ) /
          (((docs.filter (fun doc => isSubstrOf b (listToLower doc))).length : ℝ))) →
      calculate_relevance_score keywords d docs <
        calculate_relevance_score keywords dp docs) := by
  constructor
  · intro keywords d docs h
    rw [relevance_score_eq_sum]
    refine List.sum_eq_zero ?_
    intro x hx
    obtain ⟨w, hw, rfl⟩ := List.mem_map.1 hx
    simp only [tfidfTerm, h w hw, Nat.cast_zero, zero_div, lt_irrefl, if_false]
  · intro keywords d dp docs b k htok hk hbA hbkw hlt
    have hS0 : 0 ≤ calculate_relevance_score keywords d docs := by
      rw [relevance_score_eq_sum]
      exact relevance_sum_nonneg _ _ _
    have hidf : 0 < Real.log ((docs.length : ℝ) /
        (((docs.filter (fun doc => isSubstrOf b (listToLower doc))).length : ℝ))) :=
      lt_of_le_of_lt hS0 hlt
    have hdf : 0 < (docs.filter (fun doc => isSubstrOf b (listToLower doc))).length := by
      by_contra hdf0
      push_neg at hdf0
      have hdf1 : (docs.filter (fun doc => isSubstrOf b (listToLower doc))).length = 0 :=
        Nat.le_zero.1 hdf0
      rw [hdf1] at hidf
      norm_num [Real.log_zero] at hidf
    set A := tokenize (listToLower d) with hA
    set S := calculate_relevance_score keywords d docs with hSdef
    set idf := Real.log ((docs.length : ℝ) /
      (((docs.filter (fun doc => isSubstrOf b (listToLower doc))).length : ℝ))) with hidfdef
    have hscore : calculate_relevance_score keywords dp docs =
        ((A.length : ℝ) / ((A.length + k : ℕ) : ℝ)) * S +
          ((kwTokens keywords).count b : ℝ) * (((k : ℝ) / ((A.length + k : ℕ) : ℝ)) * idf) := by
      rw [relevance_score_eq_sum, htok]
      rw [List.map_congr_left
        (fun w _ => tfidfTerm_append_replicate docs A b k hk hbA hdf w)]
      rw [sum_map_combine, sum_map_ite_count]
      rw [hSdef, relevance_score_eq_sum]
    have hm1 : (1 : ℝ) ≤ ((kwTokens keywords).count b : ℝ) := by
      exact_mod_cast List.count_pos_iff.2 hbkw
    have hkR : (1 : ℝ) ≤ (k : ℝ) := by
      exact_mod_cast Nat.pos_of_ne_zero hk
    have hLpos : (0 : ℝ) < ((A.length + k : ℕ) : ℝ) := by
      exact_mod_cast Nat.add_pos_right A.length (Nat.pos_of_ne_zero hk)
    rw [hscore]
    have hmidf : S < ((kwTokens keywords).count b : ℝ) * idf :=
      lt_of_lt_of_le hlt (le_mul_of_one_le_left (le_of_lt hidf) hm1)
    have hsum : ((A.length : ℝ) / ((A.length + k : ℕ) : ℝ)) * S +
        ((kwTokens keywords).count b : ℝ) * (((k : ℝ) / ((A.length + k : ℕ) : ℝ)) * idf) =
        ((A.length : ℝ) * S + ((kwTokens keywords).count b : ℝ) * idf * (k : ℝ)) /
          ((A.length + k : ℕ) : ℝ) := by
      field_simp
      ring
    rw [hsum, lt_div_iff₀ hLpos]
    push_cast
    nlinarith [mul_lt_mul_of_pos_right hmidf (lt_of_lt_of_le zero_lt_one hkR)]

theorem c3_tfidf_monotonicity_witness :
    (tokenize (listToLower (("b a").data)) =
        tokenize (listToLower (("b").data)) ++ List.replicate 1 (("a").data)) ∧
      ((1 : Nat) ≠ 0) ∧
      ((("a").data ∉ tokenize (listToLower (("b").data)))) ∧
      ((("a").data ∈ kwTokens [("a").data])) ∧
      (calculate_relevance_score [("a").data] (("b").data) [("a").data, ("c").data] <
        Real.log ((([("a").data, ("c").data] : List Str).length : ℝ) /
          ((([("a").data, ("c").data] : List Str).filter
            (fun doc => isSubstrOf (("a").data) (listToLower doc))).length : ℝ))) ∧
      (calculate_relevance_score [("a").data] (("b").data) [("a").data, ("c").data] <
        calculate_relevance_score [("a").data] (("b a").data) [("a").data, ("c").data]) := by
  have hs : calculate_relevance_score [("a").data] (("b").data) [("a").data, ("c").data] = 0 :=
    c3_tfidf_monotonicity.1 _ _ _ (by decide)
  have hN : ([("a").data, ("c").data] : List Str).length = 2 := by decide
  have hdf : (([("a").data, ("c").data] : List Str).filter
      (fun doc => isSubstrOf (("a").data) (listToLower doc))).length = 1 := by decide
  have hlog : calculate_relevance_score [("a").data] (("b").data) [("a").data, ("c").data] <
      Real.log ((([("a").data, ("c").data] : List Str).length : ℝ) /
        ((([("a").data, ("c").data] : List Str).filter
          (fun doc => isSubstrOf (("a").data) (listToLower doc))).length : ℝ)) := by
    rw [hs, hN, hdf]
    have h21 : ((2 : Nat) : ℝ) / ((1 : Nat) : ℝ) = 2 := by norm_num
    rw [h21]
    exact Real.log_pos (by norm_num)
  exact ⟨by decide, by decide, by decide, by decide, hlog,
    c3_tfidf_monotonicity.2 [("a").data] (("b").data) (("b a").data)
      [("a").data, ("c").data] (("a").data) 1
      (by decide) (by decide) (by decide) (by decide) hlog⟩

theorem expand_keywords_nil (tbl : List (Str × List Str)) :
    expand_keywords_with_synonyms [] tbl = [] := by
  simp [expand_keywords_with_synonyms]

theorem keyword_match_score_nil_keywords (text : Str) :
    calculate_keyword_match_score [] text = 0 := by
  simp [calculate_keyword_match_score]

theorem relevance_score_nil_keywords (d : Str) (docs : List Str) :
    calculate_relevance_score [] d docs = 0 := by
  simp only [calculate_relevance_score, List.map_nil, List.sum_nil, ite_self]

theorem getOrExtract_fst_ne_nil (cache : CacheMap) (uc : Bool) (now path : Str)
    (content : Option Str) : (getOrExtract cache uc now path content).1 ≠ [] := by
  have hext := extract_metadata_fast_ne_nil now path content
  cases uc with
  | false => simp [getOrExtract, hext]
  | true =>
    cases hcs : cache (pathStem path) with
    | none => simp [getOrExtract, hcs, hext]
    | some o =>
      cases o with
      | none => simp [getOrExtract, hcs, hext]
      | some m =>
        by_cases hcond : ¬ m = [] ∧ (List.lookup kTitle m).isSome = true
        · simp only [getOrExtract, hcs, if_true]
          rw [if_pos hcond]
          exact hcond.1
        · simp only [getOrExtract, hcs, if_true]
          rw [if_neg hcond]
          simp [hext]

theorem searchStep_empty_keywords (all_documents : List Str)
    (fs : List (Str × Option Str)) (uc : Bool) (now : Str)
    (st : List LitRecord × CacheMap) (p : Str) (h : st.1 = []) :
    (searchStep [] all_documents fs uc now st p).1 = [] := by
  rcases hj : (List.lookup p fs).join with _ | c
  · simp only [searchStep, hj]
    exact h
  · simp only [searchStep, hj]
    by_cases hc : c = []
    · rw [if_pos hc]
      exact h
    · rw [if_neg hc]
      by_cases hr : (getOrExtract st.2 uc now p (some c)).1 = []
      · rw [if_pos hr]
        exact h
      · rw [if_neg hr]
        have hks : calculate_keyword_match_score [] c = 0 :=
          keyword_match_score_nil_keywords c
        have hts : calculate_relevance_score [] c all_documents = 0 :=
          relevance_score_nil_keywords c all_documents
        rw [if_neg (by rw [hks, hts]; norm_num)]
        exact h

theorem searchFold_empty_keywords (all_documents : List Str)
    (fs : List (Str × Option Str)) (uc : Bool) (now : Str) :
    ∀ (files : List Str) (st : List LitRecord × CacheMap), st.1 = [] →
      (files.foldl (searchStep [] all_documents fs uc now) st).1 = []
  | [], _, h => h
  | p :: files, st, h => by
    rw [List.foldl_cons]
    exact searchFold_empty_keywords all_documents fs uc now files _
      (searchStep_empty_keywords all_documents fs uc now st p h)

/-- C8: for every literature directory (present or absent) and every
`max_results`, searching with an empty keyword list returns an empty result
list (the model is a total function, so no exception is raised): every file's
keyword and TF-IDF scores are 0, the combined score 0 never exceeds the 0.1
threshold, and no record survives. -/
theorem c8_empty_keywords_search (dir : Option (List (Str × Option Str)))
    (max_results : Nat) (cache : CacheMap) (use_cache : Bool) (now : Str) :
    search_literature [] dir max_results cache use_cache now = [] := by
  cases dir with
  | none => rfl
  | some fs =>
    simp only [search_literature, expand_keywords_nil]
    rw [searchFold_empty_keywords _ _ _ _ _ _ rfl]
    rw [show sortS recLt ([] : List LitRecord) = [] from rfl, List.take_nil]

theorem searchStep_shape (expanded all_documents : List Str)
    (fs : List (Str × Option Str)) (uc : Bool) (now : Str)
    (st : List LitRecord × CacheMap) (p : Str) :
    (searchStep expanded all_documents fs uc now st p).1 = st.1 ∨
    ∃ rec : LitRecord,
      (searchStep expanded all_documents fs uc now st p).1 = st.1 ++ [rec] ∧
      rec.src_path = p ∧
      rec.combined_score = rec.keyword_score * 0.6 + rec.tfidf_score * 0.4 ∧
      (0.1 : ℝ) < rec.combined_score := by
  rcases hj : (List.lookup p fs).join with _ | c
  · left
    simp only [searchStep, hj]
  · simp only [searchStep, hj]
    by_cases hc : c = []
    · left
      rw [if_pos hc]
    · rw [if_neg hc]
      by_cases hr : (getOrExtract st.2 uc now p (some c)).1 = []
      · left
        rw [if_pos hr]
      · rw [if_neg hr]
        by_cases hcs : (0.1 : ℝ) <
            ((calculate_keyword_match_score expanded c : ℚ) : ℝ) * 0.6 +
              calculate_relevance_score expanded c all_documents * 0.4
        · right
          rw [if_pos hcs]
          exact ⟨_, rfl, rfl, rfl, hcs⟩
        · left
          rw [if_neg hcs]

theorem searchFold_records_prop (expanded all_documents : List Str)
    (fs : List (Str × Option Str)) (uc : Bool) (now : Str) :
    ∀ (files : List Str) (st : List LitRecord × CacheMap),
      (∀ r ∈ st.1, r.combined_score = r.keyword_score * 0.6 + r.tfidf_score * 0.4 ∧
        (0.1 : ℝ) < r.combined_score) →
      ∀ r ∈ (files.foldl (searchStep expanded all_documents fs uc now) st).1,
        r.combined_score = r.keyword_score * 0.6 + r.tfidf_score * 0.4 ∧
          (0.1 : ℝ) < r.combined_score
  | [], _, h => h
  | p :: files, st, h => by
    rw [List.foldl_cons]
    refine searchFold_records_prop expanded all_documents fs uc now files _ ?_
    rcases searchStep_shape expanded all_documents fs uc now st p with
      heq | ⟨rec, heq, _, hc1, hc2⟩
    · rw [heq]
      exact h
    · rw [heq]
      intro r hr
      rcases List.mem_append.1 hr with hr | hr
      · exact h r hr
      · have := List.mem_singleton.1 hr
        subst this
        exact ⟨hc1, hc2⟩

theorem searchFold_paths_pairwise (expanded all_documents : List Str)
    (fs : List (Str × Option Str)) (uc : Bool) (now : Str) :
    ∀ (files : List Str) (st : List LitRecord × CacheMap),
      List.Pairwise (fun a b : LitRecord => lexLt b.src_path a.src_path = false) st.1 →
      (∀ a ∈ st.1, ∀ q ∈ files, lexLt q a.src_path = false) →
      List.Pairwise (fun a b : Str => lexLt b a = false) files →
      List.Pairwise (fun a b : LitRecord => lexLt b.src_path a.src_path = false)
        ((files.foldl (searchStep expanded all_documents fs uc now) st).1)
  | [], _, h1, _, _ => h1
  | p :: files, st, h1, h2, h3 => by
    rw [List.foldl_cons]
    rcases List.pairwise_cons.1 h3 with ⟨hp, hrest⟩
    have hshape := searchStep_shape expanded all_documents fs uc now st p
    refine searchFold_paths_pairwise expanded all_documents fs uc now files _ ?_ ?_ hrest
    · rcases hshape with heq | ⟨rec, heq, hsrc, _, _⟩
      · rw [heq]
        exact h1
      · rw [heq, List.pairwise_append]
        refine ⟨h1, by simp, ?_⟩
        intro a ha b hb
        have := List.mem_singleton.1 hb
        subst this
        rw [hsrc]
        exact h2 a ha p (List.mem_cons_self _ _)
    · rcases hshape with heq | ⟨rec, heq, hsrc, _, _⟩
      · rw [heq]
        intro a ha q hq
        exact h2 a ha q (List.mem_cons_of_mem _ hq)
      · rw [heq]
        intro a ha q hq
        rcases List.mem_append.1 ha with ha | ha
        · exact h2 a ha q (List.mem_cons_of_mem _ hq)
        · have := List.mem_singleton.1 ha
          subst this
          rw [hsrc]
          exact hp q hq

/-- C1: for every keyword list, literature directory, and `max_results`, every
record returned by `search_literature` has `combined_score` exactly
`0.6 · keyword_score + 0.4 · tfidf_score` and strictly greater than 0.1
(records at or below 0.1 never appear); the returned list is sorted
non-increasing by `combined_score` and contains at most `max_results` entries. -/
theorem c1_search_ranking (keywords : List Str) (dir : Option (List (Str × Option Str)))
    (max_results : Nat) (cache : CacheMap) (use_cache : Bool) (now : Str) :
    ListAll (fun r : LitRecord =>
        r.combined_score = 0.6 * r.keyword_score + 0.4 * r.tfidf_score ∧
          (0.1 : ℝ) < r.combined_score)
      (search_literature keywords dir max_results cache use_cache now) ∧
    List.Pairwise (fun a b : LitRecord => b.combined_score ≤ a.combined_score)
      (search_literature keywords dir max_results cache use_cache now) ∧
    (search_literature keywords dir max_results cache use_cache now).length ≤ max_results := by
  cases dir with
  | none => exact ⟨trivial, List.Pairwise.nil, Nat.zero_le _⟩
  | some fs =>
    simp only [search_literature]
    refine ⟨?_, ?_, ?_⟩
    · rw [listAll_iff]
      intro r hr
      have hr1 := List.mem_of_mem_take hr
      rw [mem_sortS] at hr1
      have hprop := searchFold_records_prop _ _ fs use_cache now
        (get_supported_files fs supported_formats) ([], cache)
        (by intro r hr0; exact absurd hr0 (List.not_mem_nil r)) r hr1
      exact ⟨by rw [hprop.1]; ring, hprop.2⟩
    · refine List.Pairwise.sublist (List.take_sublist _ _) ?_
      have hs := pairwise_sortS_sorted recLt recLt_asym recLt_transD
        ((((get_supported_files fs supported_formats)).foldl
          (searchStep (expand_keywords_with_synonyms keywords get_general_synonyms)
            ((get_supported_files fs supported_formats).filterMap
              (fun p => match (List.lookup p fs).join with
                | some c => if c = [] then none else some c
                | none => none)) fs use_cache now) ([], cache)).1)
      refine hs.imp ?_
      intro a b hab
      exact le_of_not_lt (of_decide_eq_false hab)
    · rw [List.length_take]
      exact min_le_left _ _

/-- C10: `get_supported_files` returns the matched file paths sorted
non-decreasing in Python's string order, and the final ranking sort of
`search_literature` is stable; therefore documents with equal
`combined_score` appear in the search output ordered by their sorted file
path (`src_path` is the enumeration path of the scored file), so tie-breaking
among equal scores is deterministic and reproducible. -/
theorem c10_tie_ordering (fs : List (Str × Option Str)) (extensions : List Str)
    (keywords : List Str) (dir : Option (List (Str × Option Str)))
    (max_results : Nat) (cache : CacheMap) (use_cache : Bool) (now : Str) :
    List.Pairwise (fun a b : Str => lexLt b a = false)
      (get_supported_files fs extensions) ∧
    List.Pairwise (fun a b : LitRecord =>
        a.combined_score = b.combined_score → lexLt b.src_path a.src_path = false)
      (search_literature keywords dir max_results cache use_cache now) := by
  constructor
  · exact pairwise_sortS_sorted lexLt lexLt_asym lexLt_transD _
  · cases dir with
    | none => exact List.Pairwise.nil
    | some gfs =>
      simp only [search_literature]
      refine List.Pairwise.sublist (List.take_sublist _ _) ?_
      have hmatched := searchFold_paths_pairwise
        (expand_keywords_with_synonyms keywords get_general_synonyms)
        ((get_supported_files gfs supported_formats).filterMap
          (fun p => match (List.lookup p gfs).join with
            | some c => if c = [] then none else some c
            | none => none)) gfs use_cache now
        (get_supported_files gfs supported_formats) ([], cache)
        List.Pairwise.nil
        (by intro a ha; exact absurd ha (List.not_mem_nil a))
        (pairwise_sortS_sorted lexLt lexLt_asym lexLt_transD _)
      have hst := pairwise_sortS_stable recLt
        (fun a b : LitRecord => lexLt b.src_path a.src_path = false) _ hmatched
      refine hst.imp ?_
      intro a b hab heq
      refine hab ?_
      exact decide_eq_false (by rw [heq]; exact lt_irrefl _)

end ManuscriptPolish
